import Mathlib

/-!
Verification of the inotify recursive directory watcher (`src/src/Inotify.cpp`).

The C++ class `inotify::Inotify` is shallowly embedded below.  Paths are
modelled as `List Char` (the byte string the C++ `std::filesystem::path`
stores); the watch-descriptor cache `_wd_cache` as a list of entries in
insertion order (the iteration order of the `unordered_map` is modelled by
the list order); the kernel and filesystem are modelled by oracles
(`Fs` for `is_directory`, `directory_iterator` and `inotify_rm_watch`
outcomes, a `List (Option Nat)` for the watch descriptors handed out by
`inotify_add_watch`, `none` meaning the call returned `-1`).  C++
exceptions (`std::out_of_range` from `unordered_map::at`, `InotifyError`,
`std::invalid_argument`) are modelled with `Except`; fuel is used for the
stack-driven directory walk, `none` meaning the fuel or the oracle ran
out (every real execution is covered by some choice of fuel and oracle).
Path comparison is string equality, which matches `std::filesystem::path`
equality on the canonical (no redundant separator) paths the program
manipulates.
-/

namespace Watcher

/-- Paths are byte strings, modelled as lists of characters. -/
abbrev Path := List Char

/-- The platform preferred directory separator (`/` on Linux). -/
def sep : Char := '/'

/-- Converts a string literal to a `Path`. -/
def str (s : String) : Path := s.toList

/-! Bit constants from `<sys/inotify.h>`. -/

def IN_MODIFY : Nat := 0x2
def IN_MOVED_FROM : Nat := 0x40
def IN_MOVED_TO : Nat := 0x80
def IN_CREATE : Nat := 0x100
def IN_DELETE : Nat := 0x200
def IN_DELETE_SELF : Nat := 0x400
def IN_MOVE_SELF : Nat := 0x800
def IN_Q_OVERFLOW : Nat := 0x4000
def IN_IGNORED : Nat := 0x8000
def IN_ISDIR : Nat := 0x40000000

/-- Mask test `event.mask & bits` as used throughout `Inotify.cpp`. -/
def hasBit (m b : Nat) : Bool := m &&& b != 0

/-- A decoded event record (`FileEvent`): watch descriptor, mask, cookie,
name.  Kernel queue-overflow records carry `wd = -1`, but the code never
looks such a record up in the cache, so a `Nat` descriptor suffices. -/
structure Ev where
  wd : Nat
  mask : Nat
  cookie : Nat
  name : Path
  deriving Repr, DecidableEq

/-- One `_wd_cache` entry: the watch descriptor, the cached path, and
whether the watch was registered with `IN_DELETE_SELF | IN_MOVE_SELF`
armed (which `addWatch` does exactly when the cache was empty). -/
structure Entry where
  wd : Nat
  path : Path
  armed : Bool
  deriving Repr, DecidableEq

/-- Notices emitted through `_logger.logEvent`, one constructor per
format string in `Inotify.cpp`. -/
inductive Notice where
  | createdFile (p : Path)
  | deletedFile (p : Path)
  | modifiedFile (p : Path)
  | renamedFile (a b : Path)
  | movedFile (a b : Path)
  | movedOutFile (p : Path)
  | createdDir (p : Path)
  | deletedDir (p : Path)
  | renamedDir (a b : Path)
  | movedDir (a b : Path)
  | movedOutDir (p : Path)
  | nothingToWatch
  | queueOverflow
  | reinitBegin
  | reinitDone
  | watchFail (p : Path)
  | addWatchFail (p : Path)
  deriving Repr, DecidableEq

/-- Exceptions that can escape the event loop:
`outOfRange` models `std::out_of_range` thrown by `_wd_cache.at`,
`inotifyError` the `InotifyError` thrown by `reinitialize`,
`invalidArgument` the `std::invalid_argument` thrown by the constructor. -/
inductive Err where
  | outOfRange
  | inotifyError
  | invalidArgument
  deriving Repr, DecidableEq

/-- The environment oracles: `isDir` models `std::filesystem::is_directory`,
`children` models `directory_iterator` (the names listed in a directory),
`rmOk` models whether `inotify_rm_watch` succeeds on a descriptor. -/
structure Fs where
  isDir : Path → Bool
  children : Path → List Path
  rmOk : Nat → Bool

/-- The watcher state: the fields of `class Inotify` that the event loop
reads and writes.  `gen` counts how many times the descriptor triple was
created (bumped by `terminate(); initialize()` in `reinitialize`);
`rmLog` records the descriptors passed to `inotify_rm_watch`, in call
order; `log` records the emitted notices. -/
structure St where
  root : Path
  ignored : List Path
  cache : List Entry
  queue : List Ev
  buffer : List Nat
  gen : Nat
  stopped : Bool
  log : List Notice
  rmLog : List Nat
  deriving Repr, DecidableEq

/-- `std::filesystem::path::operator/` on POSIX: an absolute right side
replaces the left side; otherwise a separator is interposed unless the
left side is empty or already ends with one. -/
def fsAppend (d n : Path) : Path :=
  if n.head? = some sep then n
  else if d = [] ∨ d.getLast? = some sep then d ++ n
  else d ++ sep :: n

/-- `std::filesystem::path::filename`: the component after the last
separator (empty for a path ending in the separator). -/
def filename (p : Path) : Path := (p.reverse.takeWhile (fun c => c != sep)).reverse

/-- `Inotify::isIgnored` (`Inotify.cpp:139`): linear scan of
`_ignored_dirs` for an exact name match. -/
def isIgnored (ign : List Path) (name : Path) : Bool := ign.contains name

/-- `_wd_cache.at(wd)` (`unordered_map::at`): `none` models the thrown
`std::out_of_range`. -/
def lookupWd : List Entry → Nat → Option Path
  | [], _ => none
  | e :: tl, w => if e.wd = w then some e.path else lookupWd tl w

/-- `_wd_cache.erase(wd)`: removes the entry with that key. -/
def eraseWd (c : List Entry) (w : Nat) : List Entry := c.filter (fun e => e.wd ≠ w)

/-- `Inotify::findWd` (`Inotify.cpp:219`): first cache entry whose path
equals the argument; `none` models the `-1` return. -/
def findWd : List Entry → Path → Option Nat
  | [], _ => none
  | e :: tl, p => if e.path = p then some e.wd else findWd tl p

/-- `Inotify::addWatch` (`Inotify.cpp:195`): registers the path.  The
self-deletion/self-move bits are armed iff `_wd_cache` is empty.  The
oracle value `none` models `inotify_add_watch` returning `-1`.
`unordered_map::insert` does not overwrite an existing key. -/
def addWatch (c : List Entry) (p : Path) (w : Option Nat) : Option (List Entry) :=
  match w with
  | none => none
  | some wd =>
      some (if c.any (fun e => e.wd = wd) then c else c ++ [⟨wd, p, c.isEmpty⟩])

/-- The stack-driven loop of `Inotify::watchDirectory`
(`Inotify.cpp:168`): pop a directory, add a watch (consuming the next
descriptor from the oracle; failure returns `false`), push its
non-ignored subdirectories.  Returns the new cache, the unconsumed
oracle, the extra notices, and the boolean result. -/
def watchGo (fs : Fs) (ign : List Path) :
    Nat → List Entry → List (Option Nat) → List Path → List Notice →
    Option (List Entry × List (Option Nat) × List Notice × Bool)
  | _, c, ws, [], lg => some (c, ws, lg, true)
  | 0, _, _, _ :: _, _ => none
  | fuel + 1, c, ws, dir :: rest, lg =>
    match ws with
    | [] => none
    | w :: wtl =>
      match addWatch c dir w with
      | none => some (c, wtl, lg ++ [Notice.addWatchFail dir], false)
      | some c' =>
          let kids := (fs.children dir).filter
            (fun n => fs.isDir (fsAppend dir n) && !isIgnored ign (filename (fsAppend dir n)))
          watchGo fs ign fuel c' wtl ((kids.map (fsAppend dir)).reverse ++ rest) lg

/-- `Inotify::watchDirectory` (`Inotify.cpp:154`): fails if the path is
not a directory, silently succeeds without watching anything if its
base-name is ignored, otherwise runs the stack walk. -/
def watchDirectory (fs : Fs) (ign : List Path) (fuel : Nat) (c : List Entry)
    (wds : List (Option Nat)) (p : Path) :
    Option (List Entry × List (Option Nat) × List Notice × Bool) :=
  if ¬ fs.isDir p then some (c, wds, [Notice.watchFail p], false)
  else if isIgnored ign (filename p) then some (c, wds, [], true)
  else watchGo fs ign fuel c wds [p] []

/-- `Inotify::rewriteCachedPaths`'s per-entry test and substitution
(`Inotify.cpp:340`): the path starts with the old prefix and either ends
there or continues with the separator; then the prefix is replaced. -/
def rewriteOne (oldp newp p : Path) : Path :=
  if oldp.isPrefixOf p && (p.length == oldp.length || (p.drop oldp.length).head? == some sep)
  then newp ++ p.drop oldp.length
  else p

/-- `Inotify::rewriteCachedPaths` (`Inotify.cpp:333`): applies
`rewriteOne` to every cache entry in place. -/
def rewriteCachedPaths (oldp newp : Path) (c : List Entry) : List Entry :=
  c.map (fun e => { e with path := rewriteOne oldp newp e.path })

/-- The loop of `Inotify::zapSubdirectories` (`Inotify.cpp:362`): scans
the cache; an entry whose path has `oldp` as a plain string prefix is
removed after `inotify_rm_watch`; a failing `inotify_rm_watch` aborts
immediately with `-1` (modelled `none`).  Also returns the resulting
cache and the descriptors passed to `inotify_rm_watch`. -/
def zapGo (fs : Fs) (oldp : Path) : List Entry → Nat → Option Nat × List Entry × List Nat
  | [], cnt => (some cnt, [], [])
  | e :: tl, cnt =>
    if oldp.isPrefixOf e.path then
      if fs.rmOk e.wd then
        let r := zapGo fs oldp tl (cnt + 1)
        (r.1, r.2.1, e.wd :: r.2.2)
      else (none, e :: tl, [e.wd])
    else
      let r := zapGo fs oldp tl cnt
      (r.1, e :: r.2.1, r.2.2)

/-- `Inotify::zapSubdirectories` (`Inotify.cpp:359`). -/
def zapSubdirectories (fs : Fs) (oldp : Path) (c : List Entry) :
    Option Nat × List Entry × List Nat :=
  zapGo fs oldp c 0

/-- `Inotify::reinitialize` (`Inotify.cpp:110`): remove every watch and
drop every cache entry, tear down and recreate the descriptors, re-watch
the root (throwing `InotifyError` on failure), then clear the event
queue and zero the event buffer. -/
def reinit (fs : Fs) (fuel : Nat) (wds : List (Option Nat)) (st : St) :
    Option (Except Err St) :=
  let st1 : St := { st with
    cache := []
    rmLog := st.rmLog ++ st.cache.map (fun e => e.wd)
    gen := st.gen + 1
    log := st.log ++ [Notice.reinitBegin] }
  match watchDirectory fs st.ignored fuel [] wds st.root with
  | none => none
  | some (c, _, lg, ok) =>
    if ok then
      some (Except.ok { st1 with
        cache := c
        log := st1.log ++ lg ++ [Notice.reinitDone]
        queue := []
        buffer := st.buffer.map (fun _ => 0) })
    else some (Except.error Err.inotifyError)

/-- The shared `IN_MOVED_FROM` fall-back of `processDirectoryEvent`
(`Inotify.cpp:414` and `:443`): log the move-out, zap the subtree, and
escalate to `reinitialize` if the zap failed. -/
def zapBranch (fs : Fs) (fuel : Nat) (wds : List (Option Nat)) (st : St) (full : Path) :
    Option (Except Err St) :=
  let st1 : St := { st with log := st.log ++ [Notice.movedOutDir full] }
  match zapSubdirectories fs full st.cache with
  | (none, c', rms) =>
      reinit fs fuel wds { st1 with cache := c', rmLog := st.rmLog ++ rms }
  | (some _, c', rms) =>
      some (Except.ok { st1 with cache := c', rmLog := st.rmLog ++ rms })

/-- `Inotify::processDirectoryEvent` (`Inotify.cpp:382`).  The state's
`queue` is the queue after the dispatched event was popped; the
`IN_MOVED_FROM` branch peeks (and possibly pops) its front. -/
def processDirectoryEvent (fs : Fs) (fuel : Nat) (wds : List (Option Nat))
    (st : St) (ev : Ev) : Option (Except Err St) :=
  match lookupWd st.cache ev.wd with
  | none => some (Except.error Err.outOfRange)
  | some dp =>
    let full := fsAppend dp ev.name
    if hasBit ev.mask IN_DELETE then
      some (Except.ok (match findWd st.cache full with
        | some cw =>
            { st with cache := eraseWd st.cache cw
                      log := st.log ++ [Notice.deletedDir full] }
        | none => st))
    else if hasBit ev.mask (IN_CREATE ||| IN_MOVED_TO) then
      match watchDirectory fs st.ignored fuel st.cache wds full with
      | none => none
      | some (c', _, lg, _) =>
          some (Except.ok { st with cache := c'
                                    log := st.log ++ [Notice.createdDir full] ++ lg })
    else if hasBit ev.mask IN_MOVED_FROM then
      match st.queue with
      | [] => zapBranch fs fuel wds st full
      | nxt :: qtl =>
        if hasBit nxt.mask IN_MOVED_TO && nxt.cookie == ev.cookie then
          match lookupWd st.cache nxt.wd with
          | none => some (Except.error Err.outOfRange)
          | some ndp =>
            let nfull := fsAppend ndp nxt.name
            some (Except.ok { st with
              queue := qtl
              cache := rewriteCachedPaths full nfull st.cache
              log := st.log ++ [if dp = ndp then Notice.renamedDir full nfull
                                else Notice.movedDir full nfull] })
        else zapBranch fs fuel wds st full
    else some (Except.ok st)

/-- `Inotify::processFileEvent` (`Inotify.cpp:458`). -/
def processFileEvent (st : St) (ev : Ev) : Except Err St :=
  match lookupWd st.cache ev.wd with
  | none => Except.error Err.outOfRange
  | some dp =>
    let full := fsAppend dp ev.name
    if hasBit ev.mask (IN_CREATE ||| IN_MOVED_TO) then
      Except.ok { st with log := st.log ++ [Notice.createdFile full] }
    else if hasBit ev.mask IN_DELETE then
      Except.ok { st with log := st.log ++ [Notice.deletedFile full] }
    else if hasBit ev.mask IN_MODIFY then
      Except.ok { st with log := st.log ++ [Notice.modifiedFile full] }
    else if hasBit ev.mask IN_MOVED_FROM then
      match st.queue with
      | [] => Except.ok { st with log := st.log ++ [Notice.movedOutFile full] }
      | nxt :: qtl =>
        if hasBit nxt.mask IN_MOVED_TO && nxt.cookie == ev.cookie then
          match lookupWd st.cache nxt.wd with
          | none => Except.error Err.outOfRange
          | some ndp =>
            let nfull := fsAppend ndp nxt.name
            Except.ok { st with
              queue := qtl
              log := st.log ++ [if dp = ndp then Notice.renamedFile full nfull
                                else Notice.movedFile full nfull] }
        else Except.ok { st with log := st.log ++ [Notice.movedOutFile full] }
    else Except.ok st

/-- The per-event dispatch of `Inotify::runOnce` (`Inotify.cpp:245`):
self events stop the loop, `IN_Q_OVERFLOW` triggers `reinitialize`,
directory events and file events go to their handlers. -/
def dispatchEvent (fs : Fs) (fuel : Nat) (wds : List (Option Nat))
    (st : St) (ev : Ev) : Option (Except Err St) :=
  if hasBit ev.mask (IN_DELETE_SELF ||| IN_MOVE_SELF) then
    some (Except.ok { st with stopped := true, log := st.log ++ [Notice.nothingToWatch] })
  else if hasBit ev.mask IN_Q_OVERFLOW then
    reinit fs fuel wds { st with log := st.log ++ [Notice.queueOverflow] }
  else if hasBit ev.mask IN_ISDIR then
    processDirectoryEvent fs fuel wds st ev
  else
    some (processFileEvent st ev)

/-- `Inotify::readEventsFromBuffer` (`Inotify.cpp:303`): walk the drained
records in arrival order, pushing each one whose mask lacks `IN_IGNORED`
onto the event queue.  The byte-offset walk (`i += EVENT_SIZE +
event->len`) visits exactly the complete records in order, which the
record list models. -/
def readEventsFromBuffer : List Ev → List Ev → List Ev
  | [], q => q
  | r :: tl, q =>
      readEventsFromBuffer tl (if hasBit r.mask IN_IGNORED then q else q ++ [r])

/-- The constructor `Inotify::Inotify` (`Inotify.cpp:23`): initialize the
descriptors, then watch the root; a `false` from `watchDirectory` throws
`std::invalid_argument`.  `b0` is the (uninitialized) event buffer
content. -/
def construct (fs : Fs) (fuel : Nat) (wds : List (Option Nat)) (root : Path)
    (ign : List Path) (b0 : List Nat) : Option (Except Err St) :=
  match watchDirectory fs ign fuel [] wds root with
  | none => none
  | some (c, _, lg, ok) =>
    if ok then
      some (Except.ok { root := root, ignored := ign, cache := c, queue := []
                        buffer := b0, gen := 1, stopped := false, log := lg, rmLog := [] })
    else some (Except.error Err.invalidArgument)

/-- The specification's prefix test rule (spec §4.2): candidate `c`
equals `p`, or starts with `p` and continues with the separator.
Modelled from the spec for stating the claims about descendants. -/
def descOf (p c : Path) : Bool := c == p || (p ++ [sep]).isPrefixOf c

/-- Well-formedness of the configured root path: nonempty and not ending
in the directory separator. -/
def rootWf (r : Path) : Prop := r ≠ [] ∧ r.getLast? ≠ some sep

/-- Well-formedness of the filesystem oracle: directory entries are
names, never separator-led (which is what `directory_iterator`
guarantees). -/
def FsWf (fs : Fs) : Prop := ∀ d n, n ∈ fs.children d → n.head? ≠ some sep

/-- The cache shape asserted by spec §3: if the cache is nonempty, its
first-inserted entry is armed and carries the root path, no other entry
is armed, and every entry's path is the root path or a descendant of it
under the prefix test rule. -/
def cacheInv (root : Path) : List Entry → Prop
  | [] => True
  | e0 :: tl =>
      e0.armed = true ∧ e0.path = root ∧ (∀ e ∈ tl, e.armed = false) ∧
      (∀ e ∈ e0 :: tl, descOf root e.path = true)

/-- Watch descriptors are pairwise distinct in the cache (the
`unordered_map` key set). -/
def wdNodup (c : List Entry) : Prop := (c.map (fun e => e.wd)).Nodup

/-- States reachable by the watcher: a successful construction, followed
by any interleaving of ingestion (`readEventsIntoBuffer` +
`readEventsFromBuffer`; the kernel only delivers separator-free names),
`stop()`, and the dispatch of a dequeued event that completes without
throwing. -/
inductive Reachable (fs : Fs) : St → Prop where
  | boot (fuel : Nat) (wds : List (Option Nat)) (root : Path) (ign : List Path)
      (b0 : List Nat) (st : St)
      (h : construct fs fuel wds root ign b0 = some (Except.ok st)) :
      Reachable fs st
  | ingest (st : St) (recs : List Ev) (b : List Nat)
      (hwf : ∀ r ∈ recs, sep ∉ r.name)
      (hr : Reachable fs st) :
      Reachable fs { st with queue := readEventsFromBuffer recs st.queue, buffer := b }
  | halt (st : St) (hr : Reachable fs st) :
      Reachable fs { st with stopped := true }
  | dispatch (st : St) (ev : Ev) (rest : List Ev) (fuel : Nat)
      (wds : List (Option Nat)) (st' : St)
      (hq : st.queue = ev :: rest)
      (hd : dispatchEvent fs fuel wds { st with queue := rest } ev = some (Except.ok st'))
      (hr : Reachable fs st) :
      Reachable fs st'

/-! Concrete fixtures used by the closed counterexample and witness
theorems below. -/

/-- A filesystem oracle with no directories and always-succeeding
`inotify_rm_watch`. -/
def fsNone : Fs := ⟨fun _ => false, fun _ => [], fun _ => true⟩

/-- A filesystem oracle whose only directory is `/w`, with no entries. -/
def fsW : Fs := ⟨fun p => p == str "/w", fun _ => [], fun _ => true⟩

/-- A filesystem oracle where `/w/` is a directory with one subdirectory
`x`. -/
def fsTrail : Fs :=
  ⟨fun p => p == str "/w/" || p == str "/w/x",
   fun p => if p == str "/w/" then [str "x"] else [], fun _ => true⟩

/-- A filesystem oracle where a removal of descriptor `2` fails. -/
def fsRm2 : Fs := ⟨fun _ => false, fun _ => [], fun w => w ≠ 2⟩

/-- A state watching `/w` with only the root watch in the cache. -/
def stW : St :=
  { root := str "/w", ignored := [], cache := [⟨1, str "/w", true⟩], queue := []
    buffer := [], gen := 1, stopped := false, log := [], rmLog := [] }

/-- A state watching `/w` with cached subtree `/w/d`, `/w/d/e`, and a
pending `IN_MOVED_TO` event with cookie 7. -/
def stPair : St :=
  { root := str "/w", ignored := []
    cache := [⟨1, str "/w", true⟩, ⟨2, str "/w/d", false⟩, ⟨3, str "/w/d/e", false⟩]
    queue := [⟨1, IN_MOVED_TO ||| IN_ISDIR, 7, str "D"⟩]
    buffer := [], gen := 1, stopped := false, log := [], rmLog := [] }

/-- The state produced by constructing the watcher on `fsTrail` with root
`/w/` (a root path ending in the separator). -/
def stTrail : St :=
  { root := str "/w/", ignored := []
    cache := [⟨1, str "/w/", true⟩, ⟨2, str "/w/x", false⟩]
    queue := [], buffer := [], gen := 1, stopped := false, log := [], rmLog := [] }

/-! # Theorems -/

theorem readEventsFromBuffer_eq (recs q : List Ev) :
    readEventsFromBuffer recs q =
      q ++ recs.filter (fun r => !(hasBit r.mask IN_IGNORED)) := by
  induction recs generalizing q with
  | nil => simp [readEventsFromBuffer]
  | cons r tl ih =>
    by_cases h : hasBit r.mask IN_IGNORED
    · simp [readEventsFromBuffer, h, ih]
    · simp [readEventsFromBuffer, h, ih]

/-- C6: `readEventsFromBuffer` enqueues, in arrival order after the
existing queue, exactly the records whose mask lacks the `IN_IGNORED`
bit; records with the bit are dropped, every other record — including
`IN_DELETE_SELF`, `IN_MOVE_SELF` and `IN_Q_OVERFLOW` records — is
enqueued and so reaches the interpreter. -/
theorem c6_refill_drops_exactly_ignored (recs q : List Ev) :
    readEventsFromBuffer recs q =
      q ++ recs.filter (fun r => !(hasBit r.mask IN_IGNORED)) :=
  readEventsFromBuffer_eq recs q

/-- C1 counterexample: dispatching a dequeued directory event whose
handle (2) is not in the cache does not enter full recovery; the
`_wd_cache.at` lookup throws `std::out_of_range`, which propagates out of
the dispatch (the result is an `Except.error`, not an `Except.ok` state
produced through `reinitialize`). -/
theorem c1_unknown_handle_panics_concretely :
    dispatchEvent fsNone 0 [] stW ⟨2, IN_DELETE ||| IN_ISDIR, 0, str "d"⟩ =
      some (Except.error Err.outOfRange) := by rfl

/-- C1 amended: a dequeued event that is not a self event and not a queue
overflow and whose handle is not in the cache makes the dispatch throw
`std::out_of_range` (from `_wd_cache.at`), escaping the loop as a fatal
error; full recovery does not run for unknown handles. -/
theorem c1_unknown_handle_throws (fs : Fs) (fuel : Nat) (wds : List (Option Nat))
    (st : St) (ev : Ev)
    (hself : hasBit ev.mask (IN_DELETE_SELF ||| IN_MOVE_SELF) = false)
    (hovf : hasBit ev.mask IN_Q_OVERFLOW = false)
    (hwd : lookupWd st.cache ev.wd = none) :
    dispatchEvent fs fuel wds st ev = some (Except.error Err.outOfRange) := by
  unfold dispatchEvent
  rw [hself, hovf]
  simp only [Bool.false_eq_true, if_false]
  by_cases hdir : hasBit ev.mask IN_ISDIR
  · simp only [hdir, if_true]
    unfold processDirectoryEvent
    rw [hwd]
  · simp only [hdir, Bool.false_eq_true, if_false]
    unfold processFileEvent
    rw [hwd]

/-- C1 witness: the amended theorem applied at a concrete state and
event. -/
theorem c1_unknown_handle_throws_witness :
    hasBit (IN_DELETE ||| IN_ISDIR) (IN_DELETE_SELF ||| IN_MOVE_SELF) = false ∧
    hasBit (IN_DELETE ||| IN_ISDIR) IN_Q_OVERFLOW = false ∧
    lookupWd stW.cache 2 = none ∧
    dispatchEvent fsNone 0 [] stW ⟨2, IN_DELETE ||| IN_ISDIR, 0, str "d"⟩ =
      some (Except.error Err.outOfRange) :=
  ⟨by decide, by decide, by decide,
   c1_unknown_handle_throws fsNone 0 [] stW ⟨2, IN_DELETE ||| IN_ISDIR, 0, str "d"⟩
     (by decide) (by decide) (by decide)⟩

/-- C3 counterexample: constructing the watcher on root `/w` with ignore
list `{w}` (the root's base-name is ignored) succeeds — `watchDirectory`
returns `true` without establishing any watch, so the constructor does
not throw and the cache is empty.  The claim says this configuration is
rejected. -/
theorem c3_ignored_root_accepted_concretely :
    construct fsW 5 [some 1] (str "/w") [str "w"] [] =
      some (Except.ok { root := str "/w", ignored := [str "w"], cache := []
                        queue := [], buffer := [], gen := 1, stopped := false
                        log := [], rmLog := [] }) := by rfl

/-- C3 amended: when the root is a directory whose base-name is in the
ignore list, construction succeeds with no watch established (empty
cache, no notices); the constructor throws only when `watchDirectory`
reports failure, which this configuration does not. -/
theorem c3_ignored_root_accepted (fs : Fs) (fuel : Nat) (wds : List (Option Nat))
    (root : Path) (ign : List Path) (b0 : List Nat)
    (hdir : fs.isDir root = true)
    (hign : isIgnored ign (filename root) = true) :
    construct fs fuel wds root ign b0 =
      some (Except.ok { root := root, ignored := ign, cache := [], queue := []
                        buffer := b0, gen := 1, stopped := false, log := [], rmLog := [] }) := by
  unfold construct watchDirectory
  rw [hdir, hign]
  simp

/-- C3 witness: the amended theorem applied at a concrete configuration. -/
theorem c3_ignored_root_accepted_witness :
    fsW.isDir (str "/w") = true ∧
    isIgnored [str "w"] (filename (str "/w")) = true ∧
    construct fsW 5 [some 1] (str "/w") [str "w"] [] =
      some (Except.ok { root := str "/w", ignored := [str "w"], cache := []
                        queue := [], buffer := [], gen := 1, stopped := false
                        log := [], rmLog := [] }) :=
  ⟨by decide, by decide,
   c3_ignored_root_accepted fsW 5 [some 1] (str "/w") [str "w"] [] (by decide) (by decide)⟩

/-- C5 counterexample: a dequeued directory `IN_DELETE` event whose full
path `/w/d` has no cache handle emits no notice at all — the state is
returned unchanged, so the "deleted directory" notice is not emitted
unconditionally as the claim states. -/
theorem c5_delete_without_handle_is_silent :
    processDirectoryEvent fsNone 0 [] stW ⟨1, IN_DELETE ||| IN_ISDIR, 0, str "d"⟩ =
      some (Except.ok stW) := by rfl

/-- C5 amended: for a dequeued directory `IN_DELETE` event, the "deleted
directory" notice is emitted exactly when `findWd` resolves a handle for
`full = parent / name`, in which case precisely the entries with that
handle are erased; otherwise nothing changes.  In both cases no
`inotify_rm_watch` call is issued (`rmLog` is unchanged) and no
descendant entry is removed. -/
theorem c5_delete_dir (fs : Fs) (fuel : Nat) (wds : List (Option Nat))
    (st : St) (ev : Ev) (dp : Path)
    (hwd : lookupWd st.cache ev.wd = some dp)
    (hdel : hasBit ev.mask IN_DELETE = true) :
    (∀ cw, findWd st.cache (fsAppend dp ev.name) = some cw →
      processDirectoryEvent fs fuel wds st ev =
        some (Except.ok { st with
          cache := st.cache.filter (fun e => e.wd ≠ cw)
          log := st.log ++ [Notice.deletedDir (fsAppend dp ev.name)] })) ∧
    (findWd st.cache (fsAppend dp ev.name) = none →
      processDirectoryEvent fs fuel wds st ev = some (Except.ok st)) := by
  constructor
  · intro cw hfind
    unfold processDirectoryEvent
    rw [hwd]
    simp only [hdel, if_true, hfind, eraseWd]
  · intro hfind
    unfold processDirectoryEvent
    rw [hwd]
    simp only [hdel, if_true, hfind]

/-- C5 witness: the amended theorem applied at a concrete state with a
resolvable handle (`/w/d` cached as descriptor 2 in `stPair`). -/
theorem c5_delete_dir_witness :
    lookupWd stPair.cache 1 = some (str "/w") ∧
    hasBit (IN_DELETE ||| IN_ISDIR) IN_DELETE = true ∧
    findWd stPair.cache (fsAppend (str "/w") (str "d")) = some 2 ∧
    processDirectoryEvent fsNone 0 [] stPair ⟨1, IN_DELETE ||| IN_ISDIR, 0, str "d"⟩ =
      some (Except.ok { stPair with
        cache := stPair.cache.filter (fun e => e.wd ≠ 2)
        log := stPair.log ++ [Notice.deletedDir (fsAppend (str "/w") (str "d"))] }) :=
  ⟨by decide, by decide, by decide,
   (c5_delete_dir fsNone 0 [] stPair ⟨1, IN_DELETE ||| IN_ISDIR, 0, str "d"⟩ (str "/w")
      (by decide) (by decide)).1 2 (by decide)⟩

/-- C2 (code bug): `zapSubdirectories` tests candidate paths with a plain
string prefix check (`rfind(old, 0) == 0`) and never applies the
separator rule, so zapping prefix `/foo` also removes the entry `/foobar`
even though `/foobar` is not `/foo` nor a descendant of it under the
specification's prefix test rule. -/
theorem c2_zap_removes_non_descendant :
    zapSubdirectories fsNone (str "/foo")
        [⟨1, str "/foo", true⟩, ⟨2, str "/foobar", false⟩] =
      (some 2, [], [1, 2]) ∧
    descOf (str "/foo") (str "/foobar") = false := by decide

/-! Helper lemmas about `descOf`, `rewriteOne` and `zapGo`. -/

theorem descOf_iff (a b : Path) : descOf a b = true ↔ b = a ∨ a ++ [sep] <+: b := by
  simp [descOf, List.isPrefixOf_iff_prefix]

theorem descOf_refl (a : Path) : descOf a a = true := by
  simp [descOf]

theorem rewriteOne_of_desc (oldp newp x : Path) (h : descOf oldp x = true) :
    rewriteOne oldp newp x = newp ++ x.drop oldp.length := by
  rw [descOf_iff] at h
  unfold rewriteOne
  rcases h with h | h
  · subst h
    simp [List.isPrefixOf_iff_prefix]
  · obtain ⟨t, ht⟩ := h
    have hx : x = oldp ++ sep :: t := by rw [← ht]; simp
    subst hx
    simp [List.isPrefixOf_iff_prefix, List.drop_left]

theorem rewriteOne_of_not_desc (oldp newp x : Path) (h : descOf oldp x = false) :
    rewriteOne oldp newp x = x := by
  unfold rewriteOne
  rw [if_neg]
  intro hc
  rw [Bool.and_eq_true] at hc
  obtain ⟨h1, h2⟩ := hc
  rw [List.isPrefixOf_iff_prefix] at h1
  obtain ⟨t, ht⟩ := h1
  rw [Bool.or_eq_true] at h2
  have : descOf oldp x = true := by
    rw [descOf_iff]
    rcases h2 with h2 | h2
    · left
      have hlen : x.length = oldp.length := by simpa using h2
      have := congrArg List.length ht
      simp at this
      have ht' : t = [] := by
        have : t.length = 0 := by omega
        exact List.length_eq_zero.mp this
      subst ht'
      simp at ht
      exact ht.symm
    · right
      have hd : (x.drop oldp.length).head? = some sep := by simpa using h2
      rw [← ht, List.drop_left] at hd
      cases t with
      | nil => simp at hd
      | cons a t' =>
        simp at hd
        subst hd
        exact ⟨t', by rw [← ht]; simp⟩
  rw [this] at h
  cases h

theorem rewriteOne_roundtrip (p q x : Path)
    (h : descOf q x = true → descOf p x = true) :
    rewriteOne q p (rewriteOne p q x) = x := by
  by_cases hx : descOf p x = true
  · rw [rewriteOne_of_desc p q x hx]
    rw [descOf_iff] at hx
    rcases hx with hx | hx
    · rw [hx, List.drop_length, List.append_nil,
        rewriteOne_of_desc q p q (descOf_refl q), List.drop_length, List.append_nil]
    · obtain ⟨t, ht⟩ := hx
      have hx' : x = p ++ sep :: t := by rw [← ht]; simp
      subst hx'
      rw [List.drop_left]
      have hq : descOf q (q ++ sep :: t) = true := by
        rw [descOf_iff]
        exact Or.inr ⟨t, by simp⟩
      rw [rewriteOne_of_desc q p _ hq, List.drop_left]
  · have hx' : descOf p x = false := by
      cases hv : descOf p x
      · rfl
      · exact absurd hv hx
    have hq : descOf q x = false := by
      cases hv : descOf q x
      · rfl
      · exact absurd (h hv) hx
    rw [rewriteOne_of_not_desc p q x hx', rewriteOne_of_not_desc q p x hq]

/-- C8 counterexample: in a cache holding the single path `/b`, rewriting
prefix `/a` to `/b` and then `/b` to `/a` yields the path `/a`, not the
original `/b` — the round trip does not restore every cached path. -/
theorem c8_roundtrip_fails_concretely :
    rewriteCachedPaths (str "/b") (str "/a")
        (rewriteCachedPaths (str "/a") (str "/b") [⟨1, str "/b", true⟩]) ≠
      [⟨1, str "/b", true⟩] := by decide

/-- C8 amended: rewriting prefix `P → Q` and then `Q → P` restores every
cached path bitwise, provided every cached path that is `Q` or a
descendant of `Q` is also `P` or a descendant of `P` (in particular
whenever no cached path lies under `Q` beforehand). -/
theorem c8_rewrite_roundtrip (c : List Entry) (p q : Path)
    (h : ∀ e ∈ c, descOf q e.path = true → descOf p e.path = true) :
    rewriteCachedPaths q p (rewriteCachedPaths p q c) = c := by
  induction c with
  | nil => rfl
  | cons e tl ih =>
    have he : rewriteOne q p (rewriteOne p q e.path) = e.path :=
      rewriteOne_roundtrip p q e.path (h e (by simp))
    have htl : rewriteCachedPaths q p (rewriteCachedPaths p q tl) = tl :=
      ih (fun e' he' hq => h e' (by simp [he']) hq)
    simp only [rewriteCachedPaths, List.map_cons] at htl ⊢
    rw [htl]
    congr 1
    · cases e
      simp_all

/-- C8 witness: the amended theorem applied to the cache `{1 ↦ /a/x}`
with `P = /a`, `Q = /b`. -/
theorem c8_rewrite_roundtrip_witness :
    (∀ e ∈ [Entry.mk 1 (str "/a/x") true],
        descOf (str "/b") e.path = true → descOf (str "/a") e.path = true) ∧
    rewriteCachedPaths (str "/b") (str "/a")
        (rewriteCachedPaths (str "/a") (str "/b") [⟨1, str "/a/x", true⟩]) =
      [⟨1, str "/a/x", true⟩] :=
  ⟨by decide, c8_rewrite_roundtrip [⟨1, str "/a/x", true⟩] (str "/a") (str "/b") (by decide)⟩

theorem zapGo_fail (fs : Fs) (p : Path) (f : Entry) (ys : List Entry)
    (hf : p.isPrefixOf f.path = true) (hfr : fs.rmOk f.wd = false) :
    ∀ (xs : List Entry) (n : Nat),
      (∀ e ∈ xs, p.isPrefixOf e.path = true → fs.rmOk e.wd = true) →
      zapGo fs p (xs ++ f :: ys) n =
        (none, xs.filter (fun e => !(p.isPrefixOf e.path)) ++ f :: ys,
         (xs.filter (fun e => p.isPrefixOf e.path)).map (fun e => e.wd) ++ [f.wd]) := by
  intro xs
  induction xs with
  | nil =>
    intro n _
    simp [zapGo, hf, hfr]
  | cons x tl ih =>
    intro n hx
    cases hp : p.isPrefixOf x.path with
    | false =>
      have := ih n (fun e he hpe => hx e (by simp [he]) hpe)
      simp [zapGo, hp, this]
    | true =>
      have hok : fs.rmOk x.wd = true := hx x (by simp) hp
      have := ih (n + 1) (fun e he hpe => hx e (by simp [he]) hpe)
      simp [zapGo, hp, hok, this]

/-- C10: `zapSubdirectories` is not atomic on failure.  If the cache is
`xs ++ f :: ys` where every matching entry in `xs` has a succeeding
`inotify_rm_watch`, `f` matches but its `inotify_rm_watch` fails, then
the zap returns `-1` with every matching entry of `xs` already erased
while `f` and everything after it remain, and the `IN_MOVED_FROM`
dispatch that called it escalates to `reinitialize` on that partially
erased cache instead of rolling back. -/
theorem c10_zap_not_atomic (fs : Fs) (fuel : Nat) (wds : List (Option Nat))
    (st : St) (ev : Ev) (dp : Path) (xs : List Entry) (f : Entry) (ys : List Entry)
    (hwd : lookupWd st.cache ev.wd = some dp)
    (hdel : hasBit ev.mask IN_DELETE = false)
    (hcr : hasBit ev.mask (IN_CREATE ||| IN_MOVED_TO) = false)
    (hmf : hasBit ev.mask IN_MOVED_FROM = true)
    (hq : st.queue = [])
    (hc : st.cache = xs ++ f :: ys)
    (hxs : ∀ e ∈ xs, (fsAppend dp ev.name).isPrefixOf e.path = true → fs.rmOk e.wd = true)
    (hf : (fsAppend dp ev.name).isPrefixOf f.path = true)
    (hfr : fs.rmOk f.wd = false) :
    zapSubdirectories fs (fsAppend dp ev.name) st.cache =
      (none,
       xs.filter (fun e => !((fsAppend dp ev.name).isPrefixOf e.path)) ++ f :: ys,
       (xs.filter (fun e => (fsAppend dp ev.name).isPrefixOf e.path)).map (fun e => e.wd)
         ++ [f.wd]) ∧
    processDirectoryEvent fs fuel wds st ev =
      reinit fs fuel wds { st with
        cache := xs.filter (fun e => !((fsAppend dp ev.name).isPrefixOf e.path)) ++ f :: ys
        rmLog := st.rmLog ++
          ((xs.filter (fun e => (fsAppend dp ev.name).isPrefixOf e.path)).map (fun e => e.wd)
            ++ [f.wd])
        log := st.log ++ [Notice.movedOutDir (fsAppend dp ev.name)] } := by
  have hzap : zapSubdirectories fs (fsAppend dp ev.name) st.cache =
      (none,
       xs.filter (fun e => !((fsAppend dp ev.name).isPrefixOf e.path)) ++ f :: ys,
       (xs.filter (fun e => (fsAppend dp ev.name).isPrefixOf e.path)).map (fun e => e.wd)
         ++ [f.wd]) := by
    rw [hc]
    exact zapGo_fail fs (fsAppend dp ev.name) f ys hf hfr xs 0 hxs
  refine ⟨hzap, ?_⟩
  unfold processDirectoryEvent
  rw [hwd]
  simp only [hdel, hcr, hmf, Bool.false_eq_true, if_false, if_true]
  rw [hq]
  unfold zapBranch
  rw [hzap]
  rw [hq]

/-- C10 witness: the theorem applied at a concrete cache where removal
of descriptor 2 fails after descriptor 4 was already removed. -/
theorem c10_zap_not_atomic_witness :
    lookupWd [Entry.mk 1 (str "/w") true, Entry.mk 4 (str "/w/d/a") false,
        Entry.mk 2 (str "/w/d") false, Entry.mk 3 (str "/w/e") false] 1 =
      some (str "/w") ∧
    processDirectoryEvent fsRm2 0 []
        { root := str "/w", ignored := []
          cache := [⟨1, str "/w", true⟩, ⟨4, str "/w/d/a", false⟩,
                    ⟨2, str "/w/d", false⟩, ⟨3, str "/w/e", false⟩]
          queue := [], buffer := [], gen := 1, stopped := false, log := [], rmLog := [] }
        ⟨1, IN_MOVED_FROM ||| IN_ISDIR, 7, str "d"⟩ =
      reinit fsRm2 0 []
        { root := str "/w", ignored := []
          cache := [⟨1, str "/w", true⟩, ⟨2, str "/w/d", false⟩, ⟨3, str "/w/e", false⟩]
          queue := [], buffer := [], gen := 1, stopped := false, log := [Notice.movedOutDir (str "/w/d")]
          rmLog := [4, 2] } := by
  refine ⟨by decide, ?_⟩
  have h := (c10_zap_not_atomic fsRm2 0 []
    { root := str "/w", ignored := []
      cache := [⟨1, str "/w", true⟩, ⟨4, str "/w/d/a", false⟩,
                ⟨2, str "/w/d", false⟩, ⟨3, str "/w/e", false⟩]
      queue := [], buffer := [], gen := 1, stopped := false, log := [], rmLog := [] }
    ⟨1, IN_MOVED_FROM ||| IN_ISDIR, 7, str "d"⟩ (str "/w")
    [⟨1, str "/w", true⟩, ⟨4, str "/w/d/a", false⟩] ⟨2, str "/w/d", false⟩
    [⟨3, str "/w/e", false⟩]
    (by decide) (by decide) (by decide) (by decide) (by decide) (by decide)
    (by decide) (by decide) (by decide)).2
  exact h.trans (congrArg (reinit fsRm2 0 []) (by decide))

/-- C7: dispatching a dequeued `IN_Q_OVERFLOW` event runs full recovery
in order: every cached descriptor is passed to `inotify_rm_watch` and
dropped, the descriptors are recreated (`gen` is bumped), the configured
root is re-watched recursively obeying the ignore list, and on success
the event queue is replaced by an empty queue while the byte buffer is
zeroed; if the re-watch fails, the fatal `InotifyError` escapes the
loop. -/
theorem c7_overflow_recovery (fs : Fs) (fuel : Nat) (wds : List (Option Nat))
    (st : St) (ev : Ev)
    (hself : hasBit ev.mask (IN_DELETE_SELF ||| IN_MOVE_SELF) = false)
    (hovf : hasBit ev.mask IN_Q_OVERFLOW = true) :
    (∀ c rest lg, watchDirectory fs st.ignored fuel [] wds st.root = some (c, rest, lg, true) →
      dispatchEvent fs fuel wds st ev = some (Except.ok
        { st with cache := c, queue := [], buffer := st.buffer.map (fun _ => 0)
                  gen := st.gen + 1, rmLog := st.rmLog ++ st.cache.map (fun e => e.wd)
                  log := st.log ++ [Notice.queueOverflow, Notice.reinitBegin]
                    ++ lg ++ [Notice.reinitDone] })) ∧
    (∀ c rest lg, watchDirectory fs st.ignored fuel [] wds st.root = some (c, rest, lg, false) →
      dispatchEvent fs fuel wds st ev = some (Except.error Err.inotifyError)) := by
  constructor
  · intro c rest lg hw
    unfold dispatchEvent
    rw [hself, hovf]
    simp only [Bool.false_eq_true, if_false, if_true]
    unfold reinit
    simp only []
    rw [show ({ st with log := st.log ++ [Notice.queueOverflow] } : St).ignored = st.ignored from rfl,
        show ({ st with log := st.log ++ [Notice.queueOverflow] } : St).root = st.root from rfl,
        hw]
    simp [List.append_assoc]
  · intro c rest lg hw
    unfold dispatchEvent
    rw [hself, hovf]
    simp only [Bool.false_eq_true, if_false, if_true]
    unfold reinit
    simp only []
    rw [show ({ st with log := st.log ++ [Notice.queueOverflow] } : St).ignored = st.ignored from rfl,
        show ({ st with log := st.log ++ [Notice.queueOverflow] } : St).root = st.root from rfl,
        hw]
    simp

/-- C7 witness: the theorem's success conjunct applied at a concrete
state: the old watch 1 is removed, the root is re-watched as descriptor
4, the queue and buffer are reset. -/
theorem c7_overflow_recovery_witness :
    hasBit IN_Q_OVERFLOW (IN_DELETE_SELF ||| IN_MOVE_SELF) = false ∧
    hasBit IN_Q_OVERFLOW IN_Q_OVERFLOW = true ∧
    watchDirectory fsW stW.ignored 1 [] [some 4] stW.root =
      some ([⟨4, str "/w", true⟩], [], [], true) ∧
    dispatchEvent fsW 1 [some 4] stW ⟨0, IN_Q_OVERFLOW, 0, []⟩ = some (Except.ok
      { stW with cache := [⟨4, str "/w", true⟩], queue := []
                 buffer := stW.buffer.map (fun _ => 0), gen := stW.gen + 1
                 rmLog := stW.rmLog ++ stW.cache.map (fun e => e.wd)
                 log := stW.log ++ [Notice.queueOverflow, Notice.reinitBegin]
                   ++ [] ++ [Notice.reinitDone] }) :=
  ⟨by decide, by decide, by decide,
   (c7_overflow_recovery fsW 1 [some 4] stW ⟨0, IN_Q_OVERFLOW, 0, []⟩
      (by decide) (by decide)).1 [⟨4, str "/w", true⟩] [] [] (by decide)⟩

theorem zapGo_ok (fs : Fs) (p : Path) (hrm : ∀ w, fs.rmOk w = true) :
    ∀ (c : List Entry) (n : Nat), ∃ k, (zapGo fs p c n).1 = some k := by
  intro c
  induction c with
  | nil => intro n; exact ⟨n, rfl⟩
  | cons e tl ih =>
    intro n
    cases hp : p.isPrefixOf e.path with
    | true =>
      obtain ⟨k, hk⟩ := ih (n + 1)
      exact ⟨k, by simp [zapGo, hp, hrm e.wd, hk]⟩
    | false =>
      obtain ⟨k, hk⟩ := ih n
      exact ⟨k, by simp [zapGo, hp, hk]⟩

/-- C4: for a dequeued directory `IN_MOVED_FROM` event (when every
`inotify_rm_watch` succeeds, so zapping cannot itself force a recovery):
if the queue is empty, no renamed/moved notice is produced and the event
is treated as a move out of the subtree (move-out notice plus zap); if
the next queued event has the `IN_MOVED_TO` bit and an equal cookie, it
is consumed, exactly one renamed (same parent) or moved (different
parent) notice is emitted, and the follower is never emitted separately;
otherwise the follower is left on the queue untouched, no renamed/moved
notice is produced, and the event is treated as a move out of the
subtree. -/
theorem c4_moved_from_pairing (fs : Fs) (fuel : Nat) (wds : List (Option Nat))
    (st : St) (ev : Ev) (dp : Path)
    (hwd : lookupWd st.cache ev.wd = some dp)
    (hdel : hasBit ev.mask IN_DELETE = false)
    (hcr : hasBit ev.mask (IN_CREATE ||| IN_MOVED_TO) = false)
    (hmf : hasBit ev.mask IN_MOVED_FROM = true)
    (hrm : ∀ w, fs.rmOk w = true) :
    (st.queue = [] →
      processDirectoryEvent fs fuel wds st ev = some (Except.ok
        { st with
          cache := (zapSubdirectories fs (fsAppend dp ev.name) st.cache).2.1
          rmLog := st.rmLog ++ (zapSubdirectories fs (fsAppend dp ev.name) st.cache).2.2
          log := st.log ++ [Notice.movedOutDir (fsAppend dp ev.name)] })) ∧
    (∀ nxt qtl ndp, st.queue = nxt :: qtl →
      (hasBit nxt.mask IN_MOVED_TO && nxt.cookie == ev.cookie) = true →
      lookupWd st.cache nxt.wd = some ndp →
      processDirectoryEvent fs fuel wds st ev = some (Except.ok
        { st with
          queue := qtl
          cache := rewriteCachedPaths (fsAppend dp ev.name) (fsAppend ndp nxt.name) st.cache
          log := st.log ++
            [if dp = ndp then Notice.renamedDir (fsAppend dp ev.name) (fsAppend ndp nxt.name)
             else Notice.movedDir (fsAppend dp ev.name) (fsAppend ndp nxt.name)] })) ∧
    (∀ nxt qtl, st.queue = nxt :: qtl →
      (hasBit nxt.mask IN_MOVED_TO && nxt.cookie == ev.cookie) = false →
      processDirectoryEvent fs fuel wds st ev = some (Except.ok
        { st with
          queue := nxt :: qtl
          cache := (zapSubdirectories fs (fsAppend dp ev.name) st.cache).2.1
          rmLog := st.rmLog ++ (zapSubdirectories fs (fsAppend dp ev.name) st.cache).2.2
          log := st.log ++ [Notice.movedOutDir (fsAppend dp ev.name)] })) := by
  obtain ⟨k, hk⟩ := zapGo_ok fs (fsAppend dp ev.name) hrm st.cache 0
  have hzs : zapSubdirectories fs (fsAppend dp ev.name) st.cache =
      (some k, (zapSubdirectories fs (fsAppend dp ev.name) st.cache).2.1,
       (zapSubdirectories fs (fsAppend dp ev.name) st.cache).2.2) := by
    rw [← hk]
    rfl
  refine ⟨?_, ?_, ?_⟩
  · intro hq
    unfold processDirectoryEvent
    rw [hwd]
    simp only [hdel, hcr, hmf, Bool.false_eq_true, if_false, if_true]
    rw [hq]
    unfold zapBranch
    rw [hzs, hq]
  · intro nxt qtl ndp hq hbits hnwd
    unfold processDirectoryEvent
    rw [hwd]
    simp only [hdel, hcr, hmf, Bool.false_eq_true, if_false, if_true]
    rw [hq]
    simp only [hbits, if_true]
    rw [hnwd]
  · intro nxt qtl hq hbits
    unfold processDirectoryEvent
    rw [hwd]
    simp only [hdel, hcr, hmf, Bool.false_eq_true, if_false, if_true]
    rw [hq]
    simp only [hbits, Bool.false_eq_true, if_false]
    unfold zapBranch
    rw [hzs, hq]

/-- C4 witness: the paired conjunct applied at the concrete state
`stPair`: the `IN_MOVED_FROM` for `/w/d` consumes the queued
`IN_MOVED_TO` with equal cookie 7 and emits exactly one "renamed"
notice. -/
theorem c4_moved_from_pairing_witness :
    lookupWd stPair.cache 1 = some (str "/w") ∧
    stPair.queue = [⟨1, IN_MOVED_TO ||| IN_ISDIR, 7, str "D"⟩] ∧
    (hasBit (IN_MOVED_TO ||| IN_ISDIR) IN_MOVED_TO && (7 : Nat) == 7) = true ∧
    processDirectoryEvent fsNone 0 [] stPair ⟨1, IN_MOVED_FROM ||| IN_ISDIR, 7, str "d"⟩ =
      some (Except.ok
        { stPair with
          queue := []
          cache := rewriteCachedPaths (fsAppend (str "/w") (str "d"))
            (fsAppend (str "/w") (str "D")) stPair.cache
          log := stPair.log ++
            [if str "/w" = str "/w" then
              Notice.renamedDir (fsAppend (str "/w") (str "d")) (fsAppend (str "/w") (str "D"))
             else
              Notice.movedDir (fsAppend (str "/w") (str "d")) (fsAppend (str "/w") (str "D"))] }) :=
  ⟨by decide, by decide, by decide,
   (c4_moved_from_pairing fsNone 0 [] stPair ⟨1, IN_MOVED_FROM ||| IN_ISDIR, 7, str "d"⟩
      (str "/w") (by decide) (by decide) (by decide) (by decide) (fun _ => rfl)).2.1
     ⟨1, IN_MOVED_TO ||| IN_ISDIR, 7, str "D"⟩ [] (str "/w") (by decide) (by decide) (by decide)⟩

/-! Helper lemmas for the reachable-state invariant (claim C9). -/

theorem head_ne_sep_of_not_mem {n : Path} (h : sep ∉ n) : n.head? ≠ some sep := by
  cases n with
  | nil => simp
  | cons a t =>
    simp only [List.head?_cons, ne_eq, Option.some.injEq]
    intro ha
    exact h (by simp [ha])

theorem descOf_length {root d : Path} (h : descOf root d = true) :
    root.length ≤ d.length := by
  rw [descOf_iff] at h
  rcases h with h | h
  · simp [h]
  · have := h.length_le
    simp at this
    omega

theorem descOf_ne_nil {root d : Path} (hroot : rootWf root) (h : descOf root d = true) :
    d ≠ [] := by
  intro hd
  subst hd
  have := descOf_length h
  simp at this
  exact hroot.1 this

theorem fsAppend_length_lt {root d : Path} (n : Path)
    (hroot : rootWf root) (hd : descOf root d = true) (hn : n.head? ≠ some sep) :
    root.length < (fsAppend d n).length := by
  unfold fsAppend
  rw [if_neg hn]
  by_cases h2 : d = [] ∨ d.getLast? = some sep
  · rw [if_pos h2]
    have hdn : d ≠ [] := descOf_ne_nil hroot hd
    have hlast : d.getLast? = some sep := by
      rcases h2 with h2 | h2
      · exact absurd h2 hdn
      · exact h2
    rw [descOf_iff] at hd
    rcases hd with hd | hd
    · subst hd
      exact absurd hlast hroot.2
    · have := hd.length_le
      simp at this
      simp [List.length_append]
      omega
  · rw [if_neg h2]
    have := descOf_length hd
    simp [List.length_append]
    omega

theorem descOf_fsAppend {root d : Path} (n : Path)
    (hroot : rootWf root) (hd : descOf root d = true) (hn : n.head? ≠ some sep) :
    descOf root (fsAppend d n) = true := by
  rw [descOf_iff]
  unfold fsAppend
  rw [if_neg hn]
  rw [descOf_iff] at hd
  by_cases h2 : d = [] ∨ d.getLast? = some sep
  · rw [if_pos h2]
    rcases hd with hd | hd
    · subst hd
      rcases h2 with h2 | h2
      · exact absurd h2 hroot.1
      · exact absurd h2 hroot.2
    · exact Or.inr (hd.trans (List.prefix_append d n))
  · rw [if_neg h2]
    rcases hd with hd | hd
    · subst hd
      exact Or.inr ⟨n, by simp⟩
    · exact Or.inr (hd.trans (List.prefix_append d (sep :: n)))

theorem descOf_append_tail {root q : Path} (s : Path)
    (hd : descOf root q = true) (hs : s = [] ∨ s.head? = some sep) :
    descOf root (q ++ s) = true := by
  rw [descOf_iff] at hd ⊢
  rcases hd with hd | hd
  · subst hd
    rcases hs with hs | hs
    · subst hs
      simp
    · cases s with
      | nil => simp at hs
      | cons a t =>
        simp at hs
        subst hs
        exact Or.inr ⟨t, by simp⟩
  · exact Or.inr (hd.trans (List.prefix_append q s))

theorem drop_of_desc {p x : Path} (h : descOf p x = true) :
    x.drop p.length = [] ∨ (x.drop p.length).head? = some sep := by
  rw [descOf_iff] at h
  rcases h with h | h
  · subst h
    simp
  · obtain ⟨t, ht⟩ := h
    have hx : x = p ++ sep :: t := by rw [← ht]; simp
    subst hx
    rw [List.drop_left]
    simp

theorem isPrefixOf_false_of_longer {a b : Path} (h : b.length < a.length) :
    a.isPrefixOf b = false := by
  cases hv : a.isPrefixOf b
  · rfl
  · rw [List.isPrefixOf_iff_prefix] at hv
    have := hv.length_le
    omega

theorem descOf_false_of_longer {p c : Path} (h : c.length < p.length) :
    descOf p c = false := by
  unfold descOf
  rw [Bool.or_eq_false_iff]
  constructor
  · cases hv : c == p
    · rfl
    · have : c = p := by simpa using hv
      subst this
      omega
  · apply isPrefixOf_false_of_longer
    simp
    omega

theorem lookupWd_mem {c : List Entry} {w : Nat} {p : Path}
    (h : lookupWd c w = some p) : ∃ e, e ∈ c ∧ e.wd = w ∧ e.path = p := by
  induction c with
  | nil => cases h
  | cons e tl ih =>
    unfold lookupWd at h
    by_cases he : e.wd = w
    · rw [if_pos he] at h
      exact ⟨e, by simp, he, by simpa using h⟩
    · rw [if_neg he] at h
      obtain ⟨e', h1, h2, h3⟩ := ih h
      exact ⟨e', by simp [h1], h2, h3⟩

theorem findWd_mem {c : List Entry} {p : Path} {w : Nat}
    (h : findWd c p = some w) : ∃ e, e ∈ c ∧ e.wd = w ∧ e.path = p := by
  induction c with
  | nil => cases h
  | cons e tl ih =>
    unfold findWd at h
    by_cases he : e.path = p
    · rw [if_pos he] at h
      exact ⟨e, by simp, by simpa using h, he⟩
    · rw [if_neg he] at h
      obtain ⟨e', h1, h2, h3⟩ := ih h
      exact ⟨e', by simp [h1], h2, h3⟩

theorem zapGo_cache_sublist (fs : Fs) (p : Path) :
    ∀ (c : List Entry) (n : Nat), List.Sublist (zapGo fs p c n).2.1 c := by
  intro c
  induction c with
  | nil => intro n; simp [zapGo]
  | cons e tl ih =>
    intro n
    cases hp : p.isPrefixOf e.path with
    | true =>
      cases hrm : fs.rmOk e.wd with
      | true =>
        simp only [zapGo, hp, hrm, if_true]
        exact (ih (n + 1)).trans (List.sublist_cons_self e tl)
      | false =>
        simp only [zapGo, hp, hrm, if_true, Bool.false_eq_true, if_false]
        exact List.Sublist.refl _
    | false =>
      simp only [zapGo, hp, Bool.false_eq_true, if_false]
      exact List.Sublist.cons₂ e (ih n)

theorem zapGo_cons_not (fs : Fs) (p : Path) (e : Entry) (tl : List Entry) (n : Nat)
    (hp : p.isPrefixOf e.path = false) :
    zapGo fs p (e :: tl) n =
      ((zapGo fs p tl n).1, e :: (zapGo fs p tl n).2.1, (zapGo fs p tl n).2.2) := by
  simp [zapGo, hp]

theorem mem_readEventsFromBuffer {recs q : List Ev} {e : Ev}
    (h : e ∈ readEventsFromBuffer recs q) : e ∈ q ∨ e ∈ recs := by
  rw [readEventsFromBuffer_eq] at h
  rcases List.mem_append.1 h with h | h
  · exact Or.inl h
  · exact Or.inr (List.mem_filter.1 h).1

theorem watchGo_spec (fs : Fs) (ign : List Path) (root : Path)
    (hfs : FsWf fs) (hroot : rootWf root) :
    ∀ (fuel : Nat) (c : List Entry) (ws : List (Option Nat)) (stack : List Path)
      (lg : List Notice) (out : List Entry × List (Option Nat) × List Notice × Bool),
      watchGo fs ign fuel c ws stack lg = some out →
      c ≠ [] →
      (∀ p ∈ stack, descOf root p = true) →
      ∃ ext, out.1 = c ++ ext ∧
        (∀ e ∈ ext, e.armed = false ∧ descOf root e.path = true) ∧
        (wdNodup c → wdNodup out.1) := by
  intro fuel
  induction fuel with
  | zero =>
    intro c ws stack lg out h hc hstack
    cases stack with
    | nil =>
      simp only [watchGo, Option.some.injEq] at h
      exact ⟨[], by simp [← h], by simp, fun hn => by simpa [← h] using hn⟩
    | cons d r => simp [watchGo] at h
  | succ fuel ih =>
    intro c ws stack lg out h hc hstack
    cases stack with
    | nil =>
      simp only [watchGo, Option.some.injEq] at h
      exact ⟨[], by simp [← h], by simp, fun hn => by simpa [← h] using hn⟩
    | cons dir rest =>
      cases ws with
      | nil => simp [watchGo] at h
      | cons w wtl =>
        cases w with
        | none =>
          simp only [watchGo, addWatch, Option.some.injEq] at h
          exact ⟨[], by simp [← h], by simp, fun hn => by simpa [← h] using hn⟩
        | some wd =>
          have hemp : c.isEmpty = false := by
            cases c with
            | nil => exact absurd rfl hc
            | cons x xs => rfl
          have hstack' : ∀ p ∈ ((((fs.children dir).filter
              (fun n => fs.isDir (fsAppend dir n) &&
                !isIgnored ign (filename (fsAppend dir n)))).map
                (fsAppend dir)).reverse ++ rest), descOf root p = true := by
            intro p hp
            rcases List.mem_append.1 hp with hp | hp
            · rw [List.mem_reverse] at hp
              obtain ⟨n, hn, rfl⟩ := List.mem_map.1 hp
              have hn' := (List.mem_filter.1 hn).1
              exact descOf_fsAppend n hroot (hstack dir (by simp))
                (hfs dir n hn')
            · exact hstack p (by simp [hp])
          by_cases hcol : c.any (fun e => e.wd = wd) = true
          · simp only [watchGo, addWatch, hcol, if_true] at h
            exact ih c wtl _ lg out h hc hstack'
          · have hcol' : c.any (fun e => e.wd = wd) = false := by
              cases hv : c.any (fun e => e.wd = wd)
              · rfl
              · exact absurd hv hcol
            simp only [watchGo, addWatch, hcol', Bool.false_eq_true, if_false, hemp] at h
            obtain ⟨ext, h1, h2, h3⟩ :=
              ih (c ++ [⟨wd, dir, false⟩]) wtl _ lg out h (by simp) hstack'
            refine ⟨⟨wd, dir, false⟩ :: ext, ?_, ?_, ?_⟩
            · rw [h1, List.append_assoc]
              rfl
            · intro e he
              rcases List.mem_cons.1 he with he | he
              · subst he
                exact ⟨rfl, hstack dir (by simp)⟩
              · exact h2 e he
            · intro hn
              apply h3
              unfold wdNodup at hn ⊢
              rw [List.map_append]
              rw [List.nodup_append]
              refine ⟨hn, by simp, ?_⟩
              intro a ha hb
              simp at hb
              obtain ⟨e, he, hew⟩ := List.mem_map.1 ha
              rw [List.any_eq_false] at hcol'
              have hne := hcol' e he
              simp at hne
              exact hne (hew.trans hb)

theorem watchGo_root_spec (fs : Fs) (ign : List Path) (root : Path)
    (hfs : FsWf fs) (hroot : rootWf root)
    (fuel : Nat) (ws : List (Option Nat))
    (out : List Entry × List (Option Nat) × List Notice × Bool)
    (h : watchGo fs ign fuel [] ws [root] [] = some out) :
    cacheInv root out.1 ∧ wdNodup out.1 := by
  cases fuel with
  | zero => simp [watchGo] at h
  | succ fuel =>
    cases ws with
    | nil => simp [watchGo] at h
    | cons w wtl =>
      cases w with
      | none =>
        simp only [watchGo, addWatch, Option.some.injEq] at h
        rw [← h]
        exact ⟨trivial, by simp [wdNodup]⟩
      | some wd =>
        simp only [watchGo, addWatch, List.any_nil, Bool.false_eq_true, if_false,
          List.isEmpty_nil, List.nil_append] at h
        have hstack' : ∀ p ∈ ((((fs.children root).filter
            (fun n => fs.isDir (fsAppend root n) &&
              !isIgnored ign (filename (fsAppend root n)))).map
              (fsAppend root)).reverse ++ ([] : List Path)), descOf root p = true := by
          intro p hp
          rcases List.mem_append.1 hp with hp | hp
          · rw [List.mem_reverse] at hp
            obtain ⟨n, hn, rfl⟩ := List.mem_map.1 hp
            have hn' := (List.mem_filter.1 hn).1
            exact descOf_fsAppend n hroot (descOf_refl root) (hfs root n hn')
          · cases hp
        obtain ⟨ext, h1, h2, h3⟩ := watchGo_spec fs ign root hfs hroot fuel
          [⟨wd, root, true⟩] wtl _ [] out h (by simp) hstack'
        constructor
        · rw [h1]
          refine ⟨rfl, rfl, ?_, ?_⟩
          · intro e he
            exact (h2 e he).1
          · intro e he
            rcases List.mem_cons.1 he with he | he
            · subst he
              exact descOf_refl root
            · exact (h2 e he).2
        · exact h3 (by simp [wdNodup])

theorem watchDirectory_grow (fs : Fs) (ign : List Path) (root : Path)
    (hfs : FsWf fs) (hroot : rootWf root)
    (fuel : Nat) (c : List Entry) (ws : List (Option Nat)) (p : Path)
    (out : List Entry × List (Option Nat) × List Notice × Bool)
    (h : watchDirectory fs ign fuel c ws p = some out)
    (hc : c ≠ []) (hp : descOf root p = true) :
    ∃ ext, out.1 = c ++ ext ∧
      (∀ e ∈ ext, e.armed = false ∧ descOf root e.path = true) ∧
      (wdNodup c → wdNodup out.1) := by
  unfold watchDirectory at h
  by_cases h1 : fs.isDir p = true
  · rw [if_neg (by simp [h1])] at h
    by_cases h2 : isIgnored ign (filename p) = true
    · rw [if_pos h2] at h
      simp only [Option.some.injEq] at h
      exact ⟨[], by simp [← h], by simp, fun hn => by simpa [← h] using hn⟩
    · rw [if_neg h2] at h
      exact watchGo_spec fs ign root hfs hroot fuel c ws [p] [] out h hc
        (by intro q hq; simp at hq; subst hq; exact hp)
  · rw [if_pos (by simp [h1])] at h
    simp only [Option.some.injEq] at h
    exact ⟨[], by simp [← h], by simp, fun hn => by simpa [← h] using hn⟩

theorem watchDirectory_root_spec (fs : Fs) (ign : List Path) (root : Path)
    (hfs : FsWf fs) (hroot : rootWf root)
    (fuel : Nat) (ws : List (Option Nat))
    (out : List Entry × List (Option Nat) × List Notice × Bool)
    (h : watchDirectory fs ign fuel [] ws root = some out) :
    cacheInv root out.1 ∧ wdNodup out.1 := by
  unfold watchDirectory at h
  by_cases h1 : fs.isDir root = true
  · rw [if_neg (by simp [h1])] at h
    by_cases h2 : isIgnored ign (filename root) = true
    · rw [if_pos h2] at h
      simp only [Option.some.injEq] at h
      rw [← h]
      exact ⟨trivial, by simp [wdNodup]⟩
    · rw [if_neg h2] at h
      exact watchGo_root_spec fs ign root hfs hroot fuel ws out h
  · rw [if_pos (by simp [h1])] at h
    simp only [Option.some.injEq] at h
    rw [← h]
    exact ⟨trivial, by simp [wdNodup]⟩

theorem reinit_spec (fs : Fs) (fuel : Nat) (wds : List (Option Nat)) (st st' : St)
    (hfs : FsWf fs)
    (h : reinit fs fuel wds st = some (Except.ok st'))
    (hroot : rootWf st.root) :
    st'.root = st.root ∧ st'.ignored = st.ignored ∧ st'.queue = [] ∧
      cacheInv st.root st'.cache ∧ wdNodup st'.cache := by
  unfold reinit at h
  cases hw : watchDirectory fs st.ignored fuel [] wds st.root with
  | none => rw [hw] at h; cases h
  | some out =>
    obtain ⟨c, rest, lg, ok⟩ := out
    rw [hw] at h
    cases ok with
    | false => simp at h
    | true =>
      simp only [if_true, Option.some.injEq, Except.ok.injEq] at h
      have hinv := watchDirectory_root_spec fs st.ignored st.root hfs hroot fuel wds
        (c, rest, lg, true) hw
      rw [← h]
      exact ⟨rfl, rfl, rfl, hinv.1, hinv.2⟩

theorem reinit_root (fs : Fs) (fuel : Nat) (wds : List (Option Nat)) (st st' : St)
    (h : reinit fs fuel wds st = some (Except.ok st')) :
    st'.root = st.root ∧ st'.ignored = st.ignored := by
  unfold reinit at h
  cases hw : watchDirectory fs st.ignored fuel [] wds st.root with
  | none => rw [hw] at h; cases h
  | some out =>
    obtain ⟨c, rest, lg, ok⟩ := out
    rw [hw] at h
    cases ok with
    | false => simp at h
    | true =>
      simp only [if_true, Option.some.injEq, Except.ok.injEq] at h
      rw [← h]
      exact ⟨rfl, rfl⟩

theorem zapBranch_root (fs : Fs) (fuel : Nat) (wds : List (Option Nat)) (st : St)
    (full : Path) (st' : St)
    (h : zapBranch fs fuel wds st full = some (Except.ok st')) :
    st'.root = st.root ∧ st'.ignored = st.ignored := by
  unfold zapBranch at h
  cases hz : zapSubdirectories fs full st.cache with
  | mk r1 r2 =>
    obtain ⟨c', rms⟩ := r2
    rw [hz] at h
    cases r1 with
    | none =>
      dsimp only at h
      have hr := reinit_root fs fuel wds _ st' h
      exact hr
    | some k =>
      simp only [Option.some.injEq, Except.ok.injEq] at h
      rw [← h]
      exact ⟨rfl, rfl⟩

theorem pfe_spec (st : St) (ev : Ev) (st' : St)
    (h : processFileEvent st ev = Except.ok st') :
    st'.root = st.root ∧ st'.ignored = st.ignored ∧ st'.cache = st.cache ∧
      (∀ e ∈ st'.queue, e ∈ st.queue) := by
  unfold processFileEvent at h
  cases hlk : lookupWd st.cache ev.wd with
  | none => rw [hlk] at h; cases h
  | some dp =>
    rw [hlk] at h
    cases h1 : hasBit ev.mask (IN_CREATE ||| IN_MOVED_TO) with
    | true =>
      simp only [h1, if_true, Except.ok.injEq] at h
      rw [← h]
      exact ⟨rfl, rfl, rfl, fun e he => he⟩
    | false =>
      simp only [h1, Bool.false_eq_true, if_false] at h
      cases h2 : hasBit ev.mask IN_DELETE with
      | true =>
        simp only [h2, if_true, Except.ok.injEq] at h
        rw [← h]
        exact ⟨rfl, rfl, rfl, fun e he => he⟩
      | false =>
        simp only [h2, Bool.false_eq_true, if_false] at h
        cases h3 : hasBit ev.mask IN_MODIFY with
        | true =>
          simp only [h3, if_true, Except.ok.injEq] at h
          rw [← h]
          exact ⟨rfl, rfl, rfl, fun e he => he⟩
        | false =>
          simp only [h3, Bool.false_eq_true, if_false] at h
          cases h4 : hasBit ev.mask IN_MOVED_FROM with
          | false =>
            simp only [h4, Bool.false_eq_true, if_false, Except.ok.injEq] at h
            rw [← h]
            exact ⟨rfl, rfl, rfl, fun e he => he⟩
          | true =>
            simp only [h4, if_true] at h
            cases hq : st.queue with
            | nil =>
              rw [hq] at h
              simp only [Except.ok.injEq] at h
              rw [← h]
              exact ⟨rfl, rfl, rfl, fun e he => absurd he (List.not_mem_nil e)⟩
            | cons nxt qtl =>
              rw [hq] at h
              cases hb : (hasBit nxt.mask IN_MOVED_TO && nxt.cookie == ev.cookie) with
              | true =>
                simp only [hb, if_true] at h
                cases hlk2 : lookupWd st.cache nxt.wd with
                | none => rw [hlk2] at h; cases h
                | some ndp =>
                  rw [hlk2] at h
                  simp only [Except.ok.injEq] at h
                  rw [← h]
                  exact ⟨rfl, rfl, rfl, fun e he => List.mem_cons_of_mem nxt he⟩
              | false =>
                simp only [hb, Bool.false_eq_true, if_false, Except.ok.injEq] at h
                rw [← h]
                exact ⟨rfl, rfl, rfl, fun e he => he⟩

theorem pde_root (fs : Fs) (fuel : Nat) (wds : List (Option Nat)) (st : St) (ev : Ev)
    (st' : St) (h : processDirectoryEvent fs fuel wds st ev = some (Except.ok st')) :
    st'.root = st.root ∧ st'.ignored = st.ignored := by
  unfold processDirectoryEvent at h
  cases hlk : lookupWd st.cache ev.wd with
  | none => rw [hlk] at h; simp at h
  | some dp =>
    rw [hlk] at h
    cases hdel : hasBit ev.mask IN_DELETE with
    | true =>
      simp only [hdel, if_true] at h
      cases hf : findWd st.cache (fsAppend dp ev.name) with
      | some cw =>
        rw [hf] at h
        simp only [Option.some.injEq, Except.ok.injEq] at h
        rw [← h]; exact ⟨rfl, rfl⟩
      | none =>
        rw [hf] at h
        simp only [Option.some.injEq, Except.ok.injEq] at h
        rw [← h]; exact ⟨rfl, rfl⟩
    | false =>
      simp only [hdel, Bool.false_eq_true, if_false] at h
      cases hcr : hasBit ev.mask (IN_CREATE ||| IN_MOVED_TO) with
      | true =>
        simp only [hcr, if_true] at h
        cases hwd : watchDirectory fs st.ignored fuel st.cache wds (fsAppend dp ev.name) with
        | none => rw [hwd] at h; cases h
        | some out =>
          obtain ⟨c2, r2, lg2, b2⟩ := out
          rw [hwd] at h
          simp only [Option.some.injEq, Except.ok.injEq] at h
          rw [← h]; exact ⟨rfl, rfl⟩
      | false =>
        simp only [hcr, Bool.false_eq_true, if_false] at h
        cases hmf : hasBit ev.mask IN_MOVED_FROM with
        | true =>
          simp only [hmf, if_true] at h
          cases hq : st.queue with
          | nil =>
            rw [hq] at h
            exact zapBranch_root fs fuel wds st _ st' h
          | cons nxt qtl =>
            rw [hq] at h
            cases hb : (hasBit nxt.mask IN_MOVED_TO && nxt.cookie == ev.cookie) with
            | true =>
              simp only [hb, if_true] at h
              cases hlk2 : lookupWd st.cache nxt.wd with
              | none => rw [hlk2] at h; simp at h
              | some ndp =>
                rw [hlk2] at h
                simp only [Option.some.injEq, Except.ok.injEq] at h
                rw [← h]; exact ⟨rfl, rfl⟩
            | false =>
              simp only [hb, Bool.false_eq_true, if_false] at h
              exact zapBranch_root fs fuel wds st _ st' h
        | false =>
          simp only [hmf, Bool.false_eq_true, if_false,
            Option.some.injEq, Except.ok.injEq] at h
          rw [← h]; exact ⟨rfl, rfl⟩

theorem dispatch_root (fs : Fs) (fuel : Nat) (wds : List (Option Nat)) (st : St)
    (ev : Ev) (st' : St)
    (h : dispatchEvent fs fuel wds st ev = some (Except.ok st')) :
    st'.root = st.root ∧ st'.ignored = st.ignored := by
  unfold dispatchEvent at h
  cases hs : hasBit ev.mask (IN_DELETE_SELF ||| IN_MOVE_SELF) with
  | true =>
    simp only [hs, if_true, Option.some.injEq, Except.ok.injEq] at h
    rw [← h]; exact ⟨rfl, rfl⟩
  | false =>
    simp only [hs, Bool.false_eq_true, if_false] at h
    cases ho : hasBit ev.mask IN_Q_OVERFLOW with
    | true =>
      simp only [ho, if_true] at h
      have hr := reinit_root fs fuel wds _ st' h
      exact hr
    | false =>
      simp only [ho, Bool.false_eq_true, if_false] at h
      cases hd : hasBit ev.mask IN_ISDIR with
      | true =>
        simp only [hd, if_true] at h
        exact pde_root fs fuel wds st ev st' h
      | false =>
        simp only [hd, Bool.false_eq_true, if_false, Option.some.injEq] at h
        have := pfe_spec st ev st' h
        exact ⟨this.1, this.2.1⟩

theorem rewrite_wd_map (a b : Path) (c : List Entry) :
    (rewriteCachedPaths a b c).map (fun e => e.wd) = c.map (fun e => e.wd) := by
  rw [rewriteCachedPaths, List.map_map]
  rfl

theorem rewrite_armed_map (a b : Path) (c : List Entry) :
    (rewriteCachedPaths a b c).map (fun e => e.armed) = c.map (fun e => e.armed) := by
  rw [rewriteCachedPaths, List.map_map]
  rfl

theorem zapBranch_spec (fs : Fs) (fuel : Nat) (wds : List (Option Nat)) (st : St)
    (full : Path) (st' : St)
    (hfs : FsWf fs) (hroot : rootWf st.root)
    (hcI : cacheInv st.root st.cache) (hnd : wdNodup st.cache)
    (hflen : st.root.length < full.length)
    (h : zapBranch fs fuel wds st full = some (Except.ok st')) :
    cacheInv st.root st'.cache ∧ wdNodup st'.cache ∧
      (st'.queue = st.queue ∨ st'.queue = []) := by
  unfold zapBranch at h
  cases hc : st.cache with
  | nil =>
    rw [hc] at h
    simp only [zapSubdirectories, zapGo, Option.some.injEq, Except.ok.injEq] at h
    rw [← h]
    exact ⟨trivial, by simp [wdNodup], Or.inl rfl⟩
  | cons e0 tl =>
    rw [hc] at hcI hnd
    obtain ⟨harm, hpath, htl, hall⟩ := hcI
    have hfp : full.isPrefixOf e0.path = false := by
      rw [hpath]
      exact isPrefixOf_false_of_longer hflen
    rw [hc] at h
    unfold zapSubdirectories at h
    rw [zapGo_cons_not fs full e0 tl 0 hfp] at h
    cases hz1 : (zapGo fs full tl 0).1 with
    | none =>
      rw [hz1] at h
      dsimp only at h
      have hr := reinit_spec fs fuel wds _ st' hfs h hroot
      exact ⟨hr.2.2.2.1, hr.2.2.2.2, Or.inr hr.2.2.1⟩
    | some k =>
      rw [hz1] at h
      dsimp only at h
      simp only [Option.some.injEq, Except.ok.injEq] at h
      have hsub : List.Sublist (zapGo fs full tl 0).2.1 tl := zapGo_cache_sublist fs full tl 0
      rw [← h]
      refine ⟨⟨harm, hpath, ?_, ?_⟩, ?_, Or.inl rfl⟩
      · intro e he
        exact htl e (hsub.subset he)
      · intro e he
        rcases List.mem_cons.1 he with he | he
        · rw [he]
          exact hall e0 (by simp)
        · exact hall e (by simp [hsub.subset he])
      · unfold wdNodup at hnd ⊢
        simp only [List.map_cons] at hnd ⊢
        exact hnd.sublist (List.Sublist.cons₂ e0.wd (hsub.map (fun e => e.wd)))

theorem pde_spec (fs : Fs) (fuel : Nat) (wds : List (Option Nat)) (st : St) (ev : Ev)
    (st' : St)
    (hfs : FsWf fs) (hroot : rootWf st.root)
    (hcI : cacheInv st.root st.cache) (hnd : wdNodup st.cache)
    (hqwf : ∀ e ∈ st.queue, sep ∉ e.name) (hev : sep ∉ ev.name)
    (h : processDirectoryEvent fs fuel wds st ev = some (Except.ok st')) :
    cacheInv st.root st'.cache ∧ wdNodup st'.cache ∧ (∀ e ∈ st'.queue, e ∈ st.queue) := by
  unfold processDirectoryEvent at h
  cases hlk : lookupWd st.cache ev.wd with
  | none => rw [hlk] at h; simp at h
  | some dp =>
    rw [hlk] at h
    have hdp : descOf st.root dp = true := by
      obtain ⟨e, hmem, hewd, hepath⟩ := lookupWd_mem hlk
      cases hcmem : st.cache with
      | nil => rw [hcmem] at hmem; cases hmem
      | cons e0 tl =>
        rw [hcmem] at hcI hmem
        obtain ⟨_, _, _, hall⟩ := hcI
        rw [← hepath]
        exact hall e hmem
    have hnsep : ev.name.head? ≠ some sep := head_ne_sep_of_not_mem hev
    have hlen : st.root.length < (fsAppend dp ev.name).length :=
      fsAppend_length_lt ev.name hroot hdp hnsep
    have hdesc_full : descOf st.root (fsAppend dp ev.name) = true :=
      descOf_fsAppend ev.name hroot hdp hnsep
    cases hdel : hasBit ev.mask IN_DELETE with
    | true =>
      simp only [hdel, if_true] at h
      cases hf : findWd st.cache (fsAppend dp ev.name) with
      | some cw =>
        rw [hf] at h
        simp only [Option.some.injEq, Except.ok.injEq] at h
        cases hc : st.cache with
        | nil => rw [hc] at hf; cases hf
        | cons e0 tl =>
          rw [hc] at hcI hnd
          obtain ⟨harm, hpath, htl, hall⟩ := hcI
          have he0cw : e0.wd ≠ cw := by
            obtain ⟨e, hmem, hewd, hepath⟩ := findWd_mem hf
            rw [hc] at hmem
            rcases List.mem_cons.1 hmem with hmem | hmem
            · exfalso
              rw [hmem, hpath] at hepath
              rw [← hepath] at hlen
              omega
            · intro hcontra
              unfold wdNodup at hnd
              simp only [List.map_cons, List.nodup_cons] at hnd
              exact hnd.1 (by rw [hcontra, ← hewd]; exact List.mem_map_of_mem _ hmem)
          rw [← h]
          have herase : eraseWd (e0 :: tl) cw = e0 :: eraseWd tl cw := by
            unfold eraseWd
            rw [List.filter_cons_of_pos (by simpa using he0cw)]
          rw [hc]
          refine ⟨?_, ?_, ?_⟩
          · rw [herase]
            refine ⟨harm, hpath, ?_, ?_⟩
            · intro e he
              exact htl e (List.mem_of_mem_filter he)
            · intro e he
              rcases List.mem_cons.1 he with he | he
              · rw [he]
                exact hall e0 (by simp)
              · exact hall e (by simp [List.mem_of_mem_filter he])
          · rw [herase]
            unfold wdNodup at hnd ⊢
            simp only [List.map_cons] at hnd ⊢
            exact hnd.sublist
              (List.Sublist.cons₂ e0.wd ((List.filter_sublist tl).map (fun e => e.wd)))
          · exact fun e he => he
      | none =>
        rw [hf] at h
        simp only [Option.some.injEq, Except.ok.injEq] at h
        rw [← h]
        exact ⟨hcI, hnd, fun e he => he⟩
    | false =>
      simp only [hdel, Bool.false_eq_true, if_false] at h
      cases hcr : hasBit ev.mask (IN_CREATE ||| IN_MOVED_TO) with
      | true =>
        simp only [hcr, if_true] at h
        cases hwd : watchDirectory fs st.ignored fuel st.cache wds (fsAppend dp ev.name) with
        | none => rw [hwd] at h; cases h
        | some out =>
          rw [hwd] at h
          simp only [Option.some.injEq, Except.ok.injEq] at h
          cases hc : st.cache with
          | nil => rw [hc] at hlk; cases hlk
          | cons e0 tl =>
            rw [hc] at hwd
            obtain ⟨ext, h1, h2, h3⟩ := watchDirectory_grow fs st.ignored st.root hfs hroot
              fuel (e0 :: tl) wds (fsAppend dp ev.name) out hwd (by simp) hdesc_full
            rw [hc] at hcI hnd
            obtain ⟨harm, hpath, htl, hall⟩ := hcI
            rw [← h]
            refine ⟨?_, ?_, fun e he => he⟩
            · rw [h1, List.cons_append]
              refine ⟨harm, hpath, ?_, ?_⟩
              · intro e he
                rcases List.mem_append.1 he with he | he
                · exact htl e he
                · exact (h2 e he).1
              · intro e he
                rcases List.mem_cons.1 he with he | he
                · rw [he]
                  exact hall e0 (by simp)
                · rcases List.mem_append.1 he with he | he
                  · exact hall e (by simp [he])
                  · exact (h2 e he).2
            · exact h3 hnd
      | false =>
        simp only [hcr, Bool.false_eq_true, if_false] at h
        cases hmf : hasBit ev.mask IN_MOVED_FROM with
        | true =>
          simp only [hmf, if_true] at h
          cases hq : st.queue with
          | nil =>
            rw [hq] at h
            have hz := zapBranch_spec fs fuel wds st _ st' hfs hroot hcI hnd hlen h
            refine ⟨hz.1, hz.2.1, ?_⟩
            rcases hz.2.2 with hzq | hzq
            · rw [hzq, hq]
              exact fun e he => he
            · rw [hzq]
              exact fun e he => absurd he (List.not_mem_nil e)
          | cons nxt qtl =>
            rw [hq] at h
            cases hb : (hasBit nxt.mask IN_MOVED_TO && nxt.cookie == ev.cookie) with
            | true =>
              simp only [hb, if_true] at h
              cases hlk2 : lookupWd st.cache nxt.wd with
              | none => rw [hlk2] at h; simp at h
              | some ndp =>
                rw [hlk2] at h
                simp only [Option.some.injEq, Except.ok.injEq] at h
                have hnn : sep ∉ nxt.name := hqwf nxt (by rw [hq]; simp)
                have hndp : descOf st.root ndp = true := by
                  obtain ⟨e, hmem, hewd, hepath⟩ := lookupWd_mem hlk2
                  cases hcmem : st.cache with
                  | nil => rw [hcmem] at hmem; cases hmem
                  | cons e0 tl =>
                    rw [hcmem] at hcI hmem
                    obtain ⟨_, _, _, hall⟩ := hcI
                    rw [← hepath]
                    exact hall e hmem
                have hnfull : descOf st.root (fsAppend ndp nxt.name) = true :=
                  descOf_fsAppend nxt.name hroot hndp (head_ne_sep_of_not_mem hnn)
                cases hc : st.cache with
                | nil => rw [hc] at hlk; cases hlk
                | cons e0 tl =>
                  rw [hc] at hcI hnd
                  obtain ⟨harm, hpath, htl, hall⟩ := hcI
                  rw [← h, hc]
                  refine ⟨?_, ?_, fun e he => List.mem_cons_of_mem nxt he⟩
                  · unfold rewriteCachedPaths
                    rw [List.map_cons]
                    have hre0 : rewriteOne (fsAppend dp ev.name) (fsAppend ndp nxt.name)
                        e0.path = e0.path := by
                      apply rewriteOne_of_not_desc
                      rw [hpath]
                      exact descOf_false_of_longer hlen
                    refine ⟨harm, by simpa [hre0] using hpath, ?_, ?_⟩
                    · intro e he
                      obtain ⟨y, hy, rfl⟩ := List.mem_map.1 he
                      exact htl y hy
                    · intro e he
                      rcases List.mem_cons.1 he with he | he
                      · subst he
                        simpa [hre0] using hall e0 (by simp)
                      · obtain ⟨y, hy, rfl⟩ := List.mem_map.1 he
                        by_cases hdy : descOf (fsAppend dp ev.name) y.path = true
                        · show descOf st.root
                            (rewriteOne (fsAppend dp ev.name) (fsAppend ndp nxt.name) y.path) = true
                          rw [rewriteOne_of_desc _ _ _ hdy]
                          exact descOf_append_tail _ hnfull (drop_of_desc hdy)
                        · have hdy' : descOf (fsAppend dp ev.name) y.path = false := by
                            cases hv : descOf (fsAppend dp ev.name) y.path
                            · rfl
                            · exact absurd hv hdy
                          show descOf st.root
                            (rewriteOne (fsAppend dp ev.name) (fsAppend ndp nxt.name) y.path) = true
                          rw [rewriteOne_of_not_desc _ _ _ hdy']
                          exact hall y (by simp [hy])
                  · unfold wdNodup
                    rw [rewrite_wd_map]
                    exact hnd
            | false =>
              simp only [hb, Bool.false_eq_true, if_false] at h
              have hz := zapBranch_spec fs fuel wds st _ st' hfs hroot hcI hnd hlen h
              refine ⟨hz.1, hz.2.1, ?_⟩
              rcases hz.2.2 with hzq | hzq
              · rw [hzq, hq]
                exact fun e he => he
              · rw [hzq]
                exact fun e he => absurd he (List.not_mem_nil e)
        | false =>
          simp only [hmf, Bool.false_eq_true, if_false,
            Option.some.injEq, Except.ok.injEq] at h
          rw [← h]
          exact ⟨hcI, hnd, fun e he => he⟩

theorem dispatch_spec (fs : Fs) (fuel : Nat) (wds : List (Option Nat)) (st : St)
    (ev : Ev) (st' : St)
    (hfs : FsWf fs) (hroot : rootWf st.root)
    (hcI : cacheInv st.root st.cache) (hnd : wdNodup st.cache)
    (hqwf : ∀ e ∈ st.queue, sep ∉ e.name) (hev : sep ∉ ev.name)
    (h : dispatchEvent fs fuel wds st ev = some (Except.ok st')) :
    cacheInv st.root st'.cache ∧ wdNodup st'.cache ∧ (∀ e ∈ st'.queue, e ∈ st.queue) := by
  unfold dispatchEvent at h
  cases hs : hasBit ev.mask (IN_DELETE_SELF ||| IN_MOVE_SELF) with
  | true =>
    simp only [hs, if_true, Option.some.injEq, Except.ok.injEq] at h
    rw [← h]
    exact ⟨hcI, hnd, fun e he => he⟩
  | false =>
    simp only [hs, Bool.false_eq_true, if_false] at h
    cases ho : hasBit ev.mask IN_Q_OVERFLOW with
    | true =>
      simp only [ho, if_true] at h
      have hr := reinit_spec fs fuel wds _ st' hfs h hroot
      refine ⟨hr.2.2.2.1, hr.2.2.2.2, ?_⟩
      rw [hr.2.2.1]
      exact fun e he => absurd he (List.not_mem_nil e)
    | false =>
      simp only [ho, Bool.false_eq_true, if_false] at h
      cases hd : hasBit ev.mask IN_ISDIR with
      | true =>
        simp only [hd, if_true] at h
        exact pde_spec fs fuel wds st ev st' hfs hroot hcI hnd hqwf hev h
      | false =>
        simp only [hd, Bool.false_eq_true, if_false, Option.some.injEq] at h
        have hp := pfe_spec st ev st' h
        rw [hp.2.2.1]
        exact ⟨hcI, hnd, hp.2.2.2⟩

theorem construct_root (fs : Fs) (fuel : Nat) (wds : List (Option Nat)) (root : Path)
    (ign : List Path) (b0 : List Nat) (st : St)
    (h : construct fs fuel wds root ign b0 = some (Except.ok st)) :
    st.root = root ∧ st.ignored = ign ∧ st.queue = [] := by
  unfold construct at h
  cases hw : watchDirectory fs ign fuel [] wds root with
  | none => rw [hw] at h; cases h
  | some out =>
    obtain ⟨c, rest, lg, ok⟩ := out
    rw [hw] at h
    cases ok with
    | false => simp at h
    | true =>
      simp only [if_true, Option.some.injEq, Except.ok.injEq] at h
      rw [← h]
      exact ⟨rfl, rfl, rfl⟩

theorem construct_spec (fs : Fs) (fuel : Nat) (wds : List (Option Nat)) (root : Path)
    (ign : List Path) (b0 : List Nat) (st : St)
    (hfs : FsWf fs)
    (h : construct fs fuel wds root ign b0 = some (Except.ok st))
    (hroot : rootWf root) :
    cacheInv root st.cache ∧ wdNodup st.cache := by
  unfold construct at h
  cases hw : watchDirectory fs ign fuel [] wds root with
  | none => rw [hw] at h; cases h
  | some out =>
    obtain ⟨c, rest, lg, ok⟩ := out
    rw [hw] at h
    cases ok with
    | false => simp at h
    | true =>
      simp only [if_true, Option.some.injEq, Except.ok.injEq] at h
      have hinv := watchDirectory_root_spec fs ign root hfs hroot fuel wds
        (c, rest, lg, true) hw
      rw [← h]
      exact ⟨hinv.1, hinv.2⟩

theorem reachable_inv (fs : Fs) (st : St) (hr : Reachable fs st) (hfs : FsWf fs) :
    rootWf st.root →
      cacheInv st.root st.cache ∧ wdNodup st.cache ∧ ∀ e ∈ st.queue, sep ∉ e.name := by
  induction hr with
  | boot fuel wds root ign b0 st h =>
    intro hroot
    have hc := construct_root fs fuel wds root ign b0 st h
    have hroot' : rootWf root := by rw [← hc.1]; exact hroot
    have hs := construct_spec fs fuel wds root ign b0 st hfs h hroot'
    refine ⟨by rw [hc.1]; exact hs.1, hs.2, ?_⟩
    rw [hc.2.2]
    exact fun e he => absurd he (List.not_mem_nil e)
  | ingest st recs b hwf hr ih =>
    intro hroot
    have ihh := ih hroot
    refine ⟨ihh.1, ihh.2.1, ?_⟩
    intro e he
    rcases mem_readEventsFromBuffer he with he | he
    · exact ihh.2.2 e he
    · exact hwf e he
  | halt st hr ih =>
    intro hroot
    exact ih hroot
  | dispatch st ev rest fuel wds st' hq hd hr ih =>
    intro hroot'
    have hre1 : st'.root = st.root := (dispatch_root fs fuel wds _ ev st' hd).1
    have hroot : rootWf st.root := hre1 ▸ hroot'
    have ihh := ih hroot
    have hqsub : ∀ e ∈ rest, sep ∉ e.name := by
      intro e he
      exact ihh.2.2 e (by rw [hq]; exact List.mem_cons_of_mem ev he)
    have hevwf : sep ∉ ev.name := ihh.2.2 ev (by rw [hq]; simp)
    have hds := dispatch_spec fs fuel wds { st with queue := rest } ev st' hfs hroot
      ihh.1 ihh.2.1 hqsub hevwf hd
    rw [hre1]
    refine ⟨hds.1, hds.2.1, ?_⟩
    intro e he
    exact hqsub e (hds.2.2 e he)

/-- C9 counterexample: with the root path `/w/` (ending in the directory
separator) and a filesystem where `/w/` has the subdirectory `x`,
construction reaches a cache whose first-inserted, armed root entry has
path `/w/`, yet the other entry `/w/x` is not `/w/` nor a descendant of
it under the specification's prefix test rule — the root entry's path is
not an ancestor of every other entry's path. -/
theorem c9_trailing_separator_root_breaks_invariant :
    Reachable fsTrail stTrail ∧
    stTrail.cache = [⟨1, str "/w/", true⟩, ⟨2, str "/w/x", false⟩] ∧
    (stTrail.cache.head?.map (fun e => e.armed)) = some true ∧
    descOf (str "/w/") (str "/w/x") = false :=
  ⟨Reachable.boot 3 [some 1, some 2] (str "/w/") [] [] stTrail (by rfl),
   rfl, rfl, by decide⟩

/-- C9 amended: in every reachable state whose configured root path is
nonempty and does not end in the directory separator, the cache, when
nonempty, has exactly one armed entry — the first inserted — whose path
is the root path, every other entry is unarmed (no later `addWatch` arms
the self bits), and the root entry's path is the root path which is an
ancestor of (or equal to) every entry's path under the prefix test rule
(assuming the OS lists directory entries as plain, separator-free
names). -/
theorem c9_root_entry_invariant (fs : Fs) (st : St)
    (hr : Reachable fs st) (hfs : FsWf fs) (hroot : rootWf st.root) :
    cacheInv st.root st.cache :=
  (reachable_inv fs st hr hfs hroot).1

/-- C9 witness: the amended invariant applied to the state reached by
constructing the watcher on root `/w`. -/
theorem c9_root_entry_invariant_witness :
    Reachable fsW stW ∧ FsWf fsW ∧ rootWf stW.root ∧ cacheInv stW.root stW.cache :=
  ⟨Reachable.boot 1 [some 1] (str "/w") [] [] stW (by rfl),
   fun _ n hn => absurd hn (List.not_mem_nil n),
   ⟨by decide, by decide⟩,
   c9_root_entry_invariant fsW stW (Reachable.boot 1 [some 1] (str "/w") [] [] stW (by rfl))
     (fun _ n hn => absurd hn (List.not_mem_nil n)) ⟨by decide, by decide⟩⟩

end Watcher
